import Mathlib

/-!
Verification development for the AIModelCompressor repository
(`src/LlmCompressor/main.cpp`).

The CLI layer (`main.cpp`) is embedded directly: byte buffers are `List Nat`
with entries below 256, 64-bit machine integers are `Nat` values reduced
modulo `2 ^ 64` where the C++ code performs wrapping `uint64_t` arithmetic,
and the `std::ifstream` / `std::ofstream` operations become explicit
list-splitting reads and an explicit list of write events.

The compression engine itself (`compressor.cuh`, providing
`compress_safetensor` and `decompress_kang`) is not part of the repository
snapshot; it is modelled from the specification (spec §4.1–§4.3), with the
per-chunk lossless codec abstracted as a structure `Codec` carrying the
round-trip laws the spec states for it.
-/

namespace Kang

/-- A buffer is a list of byte values (each below 256). -/
def Bytes (l : List Nat) : Prop := ∀ x ∈ l, x < 256

instance : DecidablePred Bytes := fun l => List.decidableBAll _ l

/-- The fixed 8-byte container signature, ASCII "KANGCOMP"
(`main.cpp` line 25). -/
def KANG_SIGNATURE : List Nat := [75, 65, 78, 71, 67, 79, 77, 80]

/-- Little-endian encoding of a `uint64_t` value: the 8 bytes the C++ code
writes for a 64-bit integer (the `memcpy`/`write` of a `uint64_t`).
Values at or above `2 ^ 64` wrap, exactly as the C++ integer cast does. -/
def toLE64 (n : Nat) : List Nat :=
  [n % 256, n / 256 % 256, n / 65536 % 256, n / 16777216 % 256,
   n / 4294967296 % 256, n / 1099511627776 % 256,
   n / 281474976710656 % 256, n / 72057594037927936 % 256]

/-- Little-endian decoding of a byte list into the `uint64_t` the C++ code
reads back with `memcpy`/`read`. -/
def fromLE64 (b : List Nat) : Nat := b.foldr (fun x r => x + 256 * r) 0

/-- Reading `k` bytes from an input stream: succeeds with the bytes read and
the rest of the stream exactly when `k` bytes are available, mirroring
`std::istream::read` followed by a `good()` check. -/
def readBytes (k : Nat) (s : List Nat) : Option (List Nat × List Nat) :=
  if k ≤ s.length then some (s.take k, s.drop k) else none

theorem toLE64_length (n : Nat) : (toLE64 n).length = 8 := rfl

theorem bytes_toLE64 (n : Nat) : Bytes (toLE64 n) := by
  intro x hx
  simp only [toLE64, List.mem_cons, List.not_mem_nil, or_false] at hx
  rcases hx with h | h | h | h | h | h | h | h <;> subst h <;> omega

theorem fromLE64_toLE64 (n : Nat) : fromLE64 (toLE64 n) = n % 2 ^ 64 := by
  simp only [toLE64, fromLE64, List.foldr]
  omega

theorem fromLE64_toLE64_of_lt {n : Nat} (h : n < 2 ^ 64) :
    fromLE64 (toLE64 n) = n := by
  rw [fromLE64_toLE64, Nat.mod_eq_of_lt h]

theorem fromLE64_lt {b : List Nat} (hb : Bytes b) (h8 : b.length = 8) :
    fromLE64 b < 2 ^ 64 := by
  match b, h8 with
  | [x0, x1, x2, x3, x4, x5, x6, x7], _ =>
    simp only [Bytes, List.mem_cons, forall_eq_or_imp, List.not_mem_nil,
      false_implies, implies_true, and_true] at hb
    simp only [fromLE64, List.foldr]
    omega

theorem toLE64_fromLE64 {b : List Nat} (hb : Bytes b) (h8 : b.length = 8) :
    toLE64 (fromLE64 b) = b := by
  match b, h8 with
  | [x0, x1, x2, x3, x4, x5, x6, x7], _ =>
    simp only [Bytes, List.mem_cons, forall_eq_or_imp, List.not_mem_nil,
      false_implies, implies_true, and_true] at hb
    simp only [fromLE64, List.foldr, toLE64, List.cons.injEq, and_true]
    refine ⟨?_, ?_, ?_, ?_, ?_, ?_, ?_, ?_⟩ <;> omega

theorem bytes_append {a b : List Nat} :
    Bytes (a ++ b) ↔ Bytes a ∧ Bytes b := by
  simp [Bytes, List.mem_append]
  constructor
  · intro h; exact ⟨fun x hx => h x (Or.inl hx), fun x hx => h x (Or.inr hx)⟩
  · rintro ⟨ha, hb⟩ x (hx | hx)
    · exact ha x hx
    · exact hb x hx

theorem bytes_take {l : List Nat} (h : Bytes l) (k : Nat) :
    Bytes (l.take k) := fun x hx => h x (List.take_subset k l hx)

theorem bytes_drop {l : List Nat} (h : Bytes l) (k : Nat) :
    Bytes (l.drop k) := fun x hx => h x (List.drop_subset k l hx)

theorem readBytes_none {k : Nat} {s : List Nat} (h : s.length < k) :
    readBytes k s = none := by
  simp [readBytes, Nat.not_le.mpr h]

theorem readBytes_exact {a : List Nat} {k : Nat} (hk : a.length = k)
    (r : List Nat) : readBytes k (a ++ r) = some (a, r) := by
  subst hk
  simp [readBytes, List.take_left, List.drop_left]

theorem readBytes_some {k : Nat} {s a r : List Nat}
    (h : readBytes k s = some (a, r)) :
    s = a ++ r ∧ a.length = k ∧ a = s.take k := by
  simp only [readBytes] at h
  split at h
  · rename_i hle
    injection h with h'
    injection h' with h1 h2
    subst h1; subst h2
    exact ⟨(List.take_append_drop k s).symm, List.length_take_of_le hle, rfl⟩
  · exact absurd h (by simp)

/-- The engine's result of compressing one asset: compressed metadata header,
the chunk table of `(original_size, compressed_size)` pairs, and the
concatenated compressed chunk payload (`CompressionResult` in
`compressor.cuh` as used by `main.cpp`; spec §3).  The same fields are also
what `handle_decompression` reads back from a container. -/
structure CompressionResult where
  compressed_header : List Nat
  chunk_info : List (Nat × Nat)
  compressed_tensors : List Nat
  deriving DecidableEq, Repr

/-- The serialized chunk table: each `(original_size, compressed_size)` pair
written as two little-endian `uint64_t` values (`main.cpp` lines 88–93). -/
def tableBytes (tbl : List (Nat × Nat)) : List Nat :=
  tbl.flatMap fun p => toLE64 p.1 ++ toLE64 p.2

/-- Reading `k` chunk-table entries of two `uint64_t` each from the stream
(`main.cpp` lines 138–142); fails as soon as a read runs out of bytes. -/
def readTable : Nat → List Nat → Option (List (Nat × Nat) × List Nat)
  | 0, s => some ([], s)
  | k + 1, s =>
    match readBytes 8 s with
    | none => none
    | some (ob, s1) =>
      match readBytes 8 s1 with
      | none => none
      | some (cb, s2) =>
        match readTable k s2 with
        | none => none
        | some (tbl, rest) => some ((fromLE64 ob, fromLE64 cb) :: tbl, rest)

/-- Parse failures of `handle_decompression`'s framing phase, one constructor
per distinct error branch in `main.cpp` lines 115–158. -/
inductive FormatErr where
  | badSignature
  | headerSizeRead
  | headerRead
  | numChunksRead
  | chunkInfoRead
  deriving DecidableEq, Repr

/-- The container-parsing phase of `handle_decompression` (`main.cpp` lines
109–158).  Besides the parse result it returns, in program order, the list of
buffer allocations whose size comes from a value declared inside the stream,
as pairs `(declared allocation size, number of stream bytes remaining at the
moment of the allocation)`.  The C++ code allocates `compressed_header` at the declared
header size (line 129) before the read that detects truncation (lines
130–131), and reserves the chunk-info vector for the declared count (line
137) before reading any entry. -/
def parseContainer (s : List Nat) :
    List (Nat × Nat) × Except FormatErr CompressionResult :=
  match readBytes 8 s with
  | none => ([], .error .badSignature)
  | some (sig, s1) =>
    if sig = KANG_SIGNATURE then
      match readBytes 8 s1 with
      | none => ([], .error .headerSizeRead)
      | some (hb, s2) =>
        let hsize := fromLE64 hb
        let alloc1 := (hsize, s2.length)
        match readBytes hsize s2 with
        | none => ([alloc1], .error .headerRead)
        | some (hdr, s3) =>
          match readBytes 8 s3 with
          | none => ([alloc1], .error .numChunksRead)
          | some (kb, s4) =>
            let kcount := fromLE64 kb
            let alloc2 := (16 * kcount, s4.length)
            match readTable kcount s4 with
            | none => ([alloc1, alloc2], .error .chunkInfoRead)
            | some (tbl, s5) => ([alloc1, alloc2], .ok ⟨hdr, tbl, s5⟩)
    else ([], .error .badSignature)

/-- The byte stream `handle_compression` writes for a result (`main.cpp`
lines 82–95): signature, `uint64_t` compressed-header length, header bytes,
`uint64_t` chunk count, the chunk table, then the payload with no separate
length field. -/
def serializeContainer (r : CompressionResult) : List Nat :=
  KANG_SIGNATURE ++ toLE64 r.compressed_header.length ++ r.compressed_header
    ++ toLE64 r.chunk_info.length ++ tableBytes r.chunk_info
    ++ r.compressed_tensors

/-- Modelled from the spec: the per-chunk lossless byte compressor of
`compressor.cuh`, which is not in the repository snapshot.  Spec §4.1 states
`pack`/`unpack` are exact inverses tunable by an integer level, that a
decoder fails on bytes that "do not decode to a complete, valid stream"
(hence on any strict prefix of a valid stream), and every buffer of the
64-bit implementation is below `2 ^ 63` bytes, so compressed output still
fits a `uint64_t` size field. -/
structure Codec where
  comp : Int → List Nat → List Nat
  decomp : List Nat → Option (List Nat)
  comp_lt : ∀ lvl b, b.length < 2 ^ 63 → (comp lvl b).length < 2 ^ 64
  decomp_comp : ∀ lvl b, b.length < 2 ^ 63 → decomp (comp lvl b) = some b
  decomp_prefix : ∀ lvl b s, b.length < 2 ^ 63 → s <+: comp lvl b →
    s ≠ comp lvl b → decomp s = none

/-- Modelled from the spec: the engine's fixed target chunk size
(spec §4.2, "a fixed target size"); its value is engine-internal and no
claim depends on it. -/
def CHUNK_SIZE : Nat := 1048576

/-- Fuel-indexed worker for the chunk planner: peel chunks of `c` bytes off
the front until the payload is exhausted.  The fuel (instantiated with the
payload length, which bounds the chunk count for a positive chunk size)
makes the recursion structural. -/
def planChunksFuel (c : Nat) : Nat → List Nat → List (List Nat)
  | 0, _ => []
  | fuel + 1, l =>
    if l = [] then [] else l.take c :: planChunksFuel c fuel (l.drop c)

/-- Modelled from the spec: the chunk planner (spec §4.2) — deterministically
partition the payload into contiguous chunks of the target size, the final
chunk possibly shorter, covering the payload with no gaps or overlaps. -/
def planChunks (c : Nat) (l : List Nat) : List (List Nat) :=
  planChunksFuel c l.length l

/-- Modelled from the spec: `compress_safetensor` of `compressor.cuh`
(spec §4.3 and §4.5 forward direction) — compress the metadata block as one
unit, compress each planned chunk independently at the same level, record
`(original_size, compressed_size)` per chunk in order, and concatenate the
compressed chunks in chunk-index order. -/
def compress_safetensor (c : Codec) (lvl : Int)
    (json_header tensor_data : List Nat) : CompressionResult :=
  let chunks := planChunks CHUNK_SIZE tensor_data
  { compressed_header := c.comp lvl json_header
    chunk_info := chunks.map fun ch => (ch.length, (c.comp lvl ch).length)
    compressed_tensors := (chunks.map (c.comp lvl)).flatten }

/-- Modelled from the spec: engine-level decompression failures — a codec
failure (malformed or incomplete stream) versus a size-bookkeeping
mismatch (spec §4.3 failure policy, §7 CodecError / SizeMismatchError). -/
inductive EngErr where
  | codec
  | sizeMismatch
  deriving DecidableEq, Repr

/-- Modelled from the spec: the decompress path of the parallel executor
(spec §4.3 reverse direction) — chunk `i` of the payload occupies the bytes
from the prefix sum of the earlier compressed sizes, of length
`compressed_size_i`, and must decode to exactly `original_size_i` bytes;
processing the table in order while dropping consumed bytes computes those
prefix-sum ranges. -/
def decompChunks (c : Codec) :
    List (Nat × Nat) → List Nat → Except EngErr (List Nat)
  | [], _ => .ok []
  | (o, k) :: rest, payload =>
    match c.decomp (payload.take k) with
    | none => .error .codec
    | some b =>
      if b.length = o then
        match decompChunks c rest (payload.drop k) with
        | .ok t => .ok (b ++ t)
        | .error e => .error e
      else .error .sizeMismatch

/-- Modelled from the spec: `decompress_kang` of `compressor.cuh`
(spec §4.5 reverse direction) — unpack the metadata header and decompress
every chunk, failing the whole invocation on any chunk failure. -/
def decompress_kang (c : Codec) (compressed_header compressed_tensors : List Nat)
    (chunk_info : List (Nat × Nat)) :
    Except EngErr (List Nat × List Nat) :=
  match c.decomp compressed_header with
  | none => .error .codec
  | some m =>
    match decompChunks c chunk_info compressed_tensors with
    | .ok t => .ok (m, t)
    | .error e => .error e

/-- Failures of `handle_compression` before the engine call (`main.cpp`
lines 53–64): input smaller than 8 bytes, or the declared safetensors header
length failing the (wrapping) size check. -/
inductive CompErr where
  | tooSmall
  | headerSizeMismatch
  deriving DecidableEq, Repr

/-- Failures of `handle_decompression`: a framing error from the parse phase
or an engine error from `decompress_kang` (`main.cpp` lines 115–166). -/
inductive DecompErr where
  | format (e : FormatErr)
  | engine (e : EngErr)
  deriving DecidableEq, Repr

/-- The sequence of `out_file.write` calls `handle_compression` performs
once the engine has succeeded (`main.cpp` lines 82–95): signature, header
length, header bytes, chunk count, two writes per chunk-table entry, and the
payload write guarded by a non-emptiness test. -/
def compressionWrites (r : CompressionResult) : List (List Nat) :=
  [KANG_SIGNATURE, toLE64 r.compressed_header.length, r.compressed_header,
   toLE64 r.chunk_info.length]
  ++ (r.chunk_info.flatMap fun p => [toLE64 p.1, toLE64 p.2])
  ++ (if r.compressed_tensors = [] then [] else [r.compressed_tensors])

/-- The sequence of `out_file.write` calls `handle_decompression` performs
once the engine has succeeded (`main.cpp` lines 170–173): the `uint64_t`
metadata length, the metadata bytes, and — when non-empty — the tensor
bytes. -/
def decompressionWrites (m t : List Nat) : List (List Nat) :=
  [toLE64 m.length, m] ++ (if t = [] then [] else [t])

/-- `handle_compression` (`main.cpp` lines 41–101) on an already-read input
buffer.  The first component is the ordered list of `out_file.write` calls
(empty if the output file is never created), the second the operation result
carrying the full output bytes.

Faithful details: the size check at line 61 compares `file_buffer.size()`
with the wrapping `uint64_t` sum `8 + header_len`; the header/tensor split
(lines 65–66) takes `header_len` bytes after the length prefix; the output
file is opened and written only after `compress_safetensor` has
succeeded. -/
def handle_compression (c : Codec) (lvl : Int) (buf : List Nat) :
    List (List Nat) × Except CompErr (List Nat) :=
  if buf.length < 8 then ([], .error .tooSmall)
  else
    let header_len := fromLE64 (buf.take 8)
    if buf.length < (8 + header_len) % 2 ^ 64 then
      ([], .error .headerSizeMismatch)
    else
      let json_header := (buf.drop 8).take header_len
      let tensor_data := buf.drop (8 + header_len)
      let writes := compressionWrites
        (compress_safetensor c lvl json_header tensor_data)
      (writes, .ok writes.flatten)

/-- `handle_decompression` (`main.cpp` lines 104–179) on an input stream.
The first component is the ordered list of `out_file.write` calls (empty if
the output file is never created), the second the result carrying the full
output bytes.  The output file is opened only after `decompress_kang` has
succeeded (lines 161–174). -/
def handle_decompression (c : Codec) (s : List Nat) :
    List (List Nat) × Except DecompErr (List Nat) :=
  match (parseContainer s).2 with
  | .error e => ([], .error (.format e))
  | .ok cont =>
    match decompress_kang c cont.compressed_header cont.compressed_tensors
        cont.chunk_info with
    | .error e => ([], .error (.engine e))
    | .ok (m, t) =>
      (decompressionWrites m t, .ok (decompressionWrites m t).flatten)

/-- The command word `main` dispatches on (`args[0]`, compared against
"compress" and "decompress" in `main.cpp` lines 256–264). -/
inductive Command where
  | compress
  | decompress
  | unknown
  deriving DecidableEq, Repr

/-- The exit status `main` returns for a regular-file input with a
recognized command (`main.cpp` lines 255–266 and 277): the handler is
invoked, its outcome is discarded (the handlers return `void` in C++ and
`main` inspects nothing), and `main` falls through to `return 0`; an
unrecognized command prints usage and returns 1. -/
def singleFileExitCode (c : Codec) (cmd : Command) (lvl : Int)
    (input : List Nat) : Nat :=
  match cmd with
  | .compress =>
    match (handle_compression c lvl input).2 with
    | .ok _ => 0
    | .error _ => 0
  | .decompress =>
    match (handle_decompression c input).2 with
    | .ok _ => 0
    | .error _ => 0
  | .unknown => 1

/-- The compression-level option handling in `main` (`main.cpp` lines
196–210): `std::stoi` either throws — modelled as `none`, leading to the
error exit — or yields an integer that becomes the compression level with
no further validation. -/
def resolveLevelArg : Option Int → Except Unit Int
  | none => .error ()
  | some z => .ok z

/-- Lower bound of the level range documented by `print_usage`
(`main.cpp` line 19: "Compression level (1-19, default: 10)"). -/
def USAGE_LEVEL_MIN : Int := 1

/-- Upper bound of the level range documented by `print_usage`
(`main.cpp` line 19). -/
def USAGE_LEVEL_MAX : Int := 19

theorem take_append_exact {a : List Nat} {k : Nat} (h : a.length = k)
    (r : List Nat) : (a ++ r).take k = a := by
  subst h; exact List.take_left a r

theorem drop_append_exact {a : List Nat} {k : Nat} (h : a.length = k)
    (r : List Nat) : (a ++ r).drop k = r := by
  subst h; exact List.drop_left a r

theorem prefix_take_eq {s t : List Nat} (hp : s <+: t) {k : Nat}
    (hk : k ≤ s.length) : t.take k = s.take k := by
  obtain ⟨u, rfl⟩ := hp
  rw [List.take_append_eq_append_take, Nat.sub_eq_zero_of_le hk,
    List.take_zero, List.append_nil]

theorem prefix_drop {s t : List Nat} (hp : s <+: t) {k : Nat}
    (hk : k ≤ s.length) : s.drop k <+: t.drop k := by
  obtain ⟨u, rfl⟩ := hp
  rw [List.drop_append_eq_append_drop, Nat.sub_eq_zero_of_le hk,
    List.drop_zero]
  exact ⟨u, rfl⟩

theorem prefix_of_prefix_length_le {s a b : List Nat} (hp : s <+: a ++ b)
    (hl : s.length ≤ a.length) : s <+: a := by
  have hs : s = (a ++ b).take s.length := by
    rw [List.prefix_iff_eq_take] at hp; exact hp
  rw [List.take_append_eq_append_take, Nat.sub_eq_zero_of_le hl,
    List.take_zero, List.append_nil] at hs
  rw [hs]
  exact List.take_prefix _ _

/-- The compress direction of the concrete witness codec: prefix the
original bytes with their 64-bit length. -/
def lenComp (_lvl : Int) (b : List Nat) : List Nat := toLE64 b.length ++ b

/-- The decompress direction of the concrete witness codec: accept exactly
the complete streams `lenComp` produces. -/
def lenDecomp (s : List Nat) : Option (List Nat) :=
  if 8 ≤ s.length ∧ fromLE64 (s.take 8) = s.length - 8 then some (s.drop 8)
  else none

/-- A concrete codec satisfying the spec's codec laws, used to instantiate
witnesses. -/
def lenCodec : Codec where
  comp := lenComp
  decomp := lenDecomp
  comp_lt := by
    intro lvl b hb
    simp only [lenComp, List.length_append, toLE64_length]
    omega
  decomp_comp := by
    intro lvl b hb
    have hlt : b.length < 2 ^ 64 := by omega
    have ht : (toLE64 b.length ++ b).take 8 = toLE64 b.length :=
      take_append_exact (toLE64_length _) b
    have hd : (toLE64 b.length ++ b).drop 8 = b :=
      drop_append_exact (toLE64_length _) b
    simp only [lenComp, lenDecomp, ht, hd, List.length_append, toLE64_length,
      fromLE64_toLE64_of_lt hlt]
    rw [if_pos]
    exact ⟨by omega, by omega⟩
  decomp_prefix := by
    intro lvl b s hb hp hne
    simp only [lenComp] at hp hne
    have hlt : b.length < 2 ^ 64 := by omega
    have hlen : s.length < (toLE64 b.length ++ b).length := by
      rcases Nat.lt_or_ge s.length (toLE64 b.length ++ b).length with h | h
      · exact h
      · exact absurd (hp.eq_of_length (Nat.le_antisymm hp.length_le h)) hne
    simp only [List.length_append, toLE64_length] at hlen
    rw [lenDecomp, if_neg]
    rintro ⟨h8, hval⟩
    have ht : s.take 8 = toLE64 b.length := by
      have := prefix_take_eq hp (k := 8) h8
      rw [take_append_exact (toLE64_length _) b] at this
      exact this.symm
    rw [ht, fromLE64_toLE64_of_lt hlt] at hval
    omega

theorem planChunksFuel_flatten {c : Nat} (hc : 0 < c) :
    ∀ (fuel : Nat) (l : List Nat), l.length ≤ fuel →
      (planChunksFuel c fuel l).flatten = l := by
  intro fuel
  induction fuel with
  | zero =>
    intro l hl
    have : l = [] := List.eq_nil_of_length_eq_zero (Nat.le_zero.mp hl)
    simp [this, planChunksFuel]
  | succ n ih =>
    intro l hl
    by_cases h0 : l = []
    · simp [h0, planChunksFuel]
    · have hpos : 0 < l.length := List.length_pos.mpr h0
      have hdrop : (l.drop c).length ≤ n := by
        simp only [List.length_drop]; omega
      simp only [planChunksFuel, if_neg h0, List.flatten_cons, ih _ hdrop,
        List.take_append_drop]

theorem planChunks_flatten {c : Nat} (hc : 0 < c) (l : List Nat) :
    (planChunks c l).flatten = l :=
  planChunksFuel_flatten hc l.length l le_rfl

theorem planChunksFuel_mem_length {c : Nat} :
    ∀ (fuel : Nat) (l ch : List Nat), ch ∈ planChunksFuel c fuel l →
      ch.length ≤ l.length := by
  intro fuel
  induction fuel with
  | zero => intro l ch h; simp [planChunksFuel] at h
  | succ n ih =>
    intro l ch h
    by_cases h0 : l = []
    · simp [h0, planChunksFuel] at h
    · simp only [planChunksFuel, if_neg h0, List.mem_cons] at h
      rcases h with h | h
      · subst h; simp
      · have := ih _ _ h
        simp only [List.length_drop] at this
        omega

theorem planChunks_mem_length {c : Nat} {l ch : List Nat}
    (h : ch ∈ planChunks c l) : ch.length ≤ l.length :=
  planChunksFuel_mem_length l.length l ch h

theorem planChunksFuel_count {c : Nat} (hc : 0 < c) :
    ∀ (fuel : Nat) (l : List Nat), l.length ≤ fuel →
      (planChunksFuel c fuel l).length ≤ l.length := by
  intro fuel
  induction fuel with
  | zero =>
    intro l hl
    have : l = [] := List.eq_nil_of_length_eq_zero (Nat.le_zero.mp hl)
    simp [this, planChunksFuel]
  | succ n ih =>
    intro l hl
    by_cases h0 : l = []
    · simp [h0, planChunksFuel]
    · have hpos : 0 < l.length := List.length_pos.mpr h0
      have hdrop : (l.drop c).length ≤ n := by
        simp only [List.length_drop]; omega
      have := ih _ hdrop
      simp only [planChunksFuel, if_neg h0, List.length_cons,
        List.length_drop] at *
      omega

theorem planChunks_count {c : Nat} (hc : 0 < c) (l : List Nat) :
    (planChunks c l).length ≤ l.length :=
  planChunksFuel_count hc l.length l le_rfl

theorem tableBytes_length (tbl : List (Nat × Nat)) :
    (tableBytes tbl).length = 16 * tbl.length := by
  induction tbl with
  | nil => simp [tableBytes]
  | cons p rest ih =>
    simp only [tableBytes, List.flatMap_cons, List.length_append,
      List.length_cons, toLE64_length] at *
    omega

theorem bytes_tableBytes (tbl : List (Nat × Nat)) : Bytes (tableBytes tbl) := by
  induction tbl with
  | nil => intro x hx; simp [tableBytes] at hx
  | cons p rest ih =>
    simp only [tableBytes, List.flatMap_cons] at *
    rw [List.append_assoc, bytes_append, bytes_append]
    exact ⟨bytes_toLE64 _, bytes_toLE64 _, ih⟩

theorem readTable_exact {tbl : List (Nat × Nat)}
    (hE : ∀ p ∈ tbl, p.1 < 2 ^ 64 ∧ p.2 < 2 ^ 64) (q : List Nat) :
    readTable tbl.length (tableBytes tbl ++ q) = some (tbl, q) := by
  induction tbl with
  | nil => simp [readTable, tableBytes]
  | cons p rest ih =>
    have hp := hE p (List.mem_cons_self p rest)
    have hrest : ∀ x ∈ rest, x.1 < 2 ^ 64 ∧ x.2 < 2 ^ 64 :=
      fun x hx => hE x (List.mem_cons_of_mem p hx)
    have ihq := ih hrest
    simp only [tableBytes, List.flatMap_cons, List.length_cons,
      List.append_assoc] at ihq ⊢
    rw [readTable]
    simp only [readBytes_exact (toLE64_length p.1),
      readBytes_exact (toLE64_length p.2), ihq,
      fromLE64_toLE64_of_lt hp.1, fromLE64_toLE64_of_lt hp.2]

theorem readTable_none {K : Nat} :
    ∀ {s : List Nat}, s.length < 16 * K → readTable K s = none := by
  induction K with
  | zero => intro s h; omega
  | succ n ih =>
    intro s h
    rw [readTable]
    by_cases h8 : s.length < 8
    · simp only [readBytes_none h8]
    · have e1 : readBytes 8 s = some (s.take 8, s.drop 8) := by
        rw [readBytes, if_pos (Nat.le_of_not_lt h8)]
      by_cases h16 : (s.drop 8).length < 8
      · simp only [e1, readBytes_none h16]
      · have e2 : readBytes 8 (s.drop 8) =
            some ((s.drop 8).take 8, (s.drop 8).drop 8) := by
          rw [readBytes, if_pos (Nat.le_of_not_lt h16)]
        have h16' : 8 ≤ s.length - 8 := by
          rw [← List.length_drop]; exact Nat.le_of_not_lt h16
        have e3 : readTable n ((s.drop 8).drop 8) = none := by
          refine ih ?_
          rw [List.drop_drop, List.length_drop]
          omega
        simp only [e1, e2, e3]

theorem readTable_sound {K : Nat} :
    ∀ {s tblq : List Nat} {tbl : List (Nat × Nat)}, Bytes s →
      readTable K s = some (tbl, tblq) →
      s = tableBytes tbl ++ tblq ∧ tbl.length = K ∧
        ∀ p ∈ tbl, p.1 < 2 ^ 64 ∧ p.2 < 2 ^ 64 := by
  induction K with
  | zero =>
    intro s tblq tbl hb h
    rw [readTable] at h
    injection h with h'
    injection h' with h1 h2
    subst h1; subst h2
    simp [tableBytes]
  | succ n ih =>
    intro s tblq tbl hb h
    rw [readTable] at h
    cases h1 : readBytes 8 s with
    | none => simp only [h1] at h; exact Option.noConfusion h
    | some v1 =>
      obtain ⟨ob, s1⟩ := v1
      simp only [h1] at h
      obtain ⟨hs1, hlen1, -⟩ := readBytes_some h1
      cases h2 : readBytes 8 s1 with
      | none => simp only [h2] at h; exact Option.noConfusion h
      | some v2 =>
        obtain ⟨cb, s2⟩ := v2
        simp only [h2] at h
        obtain ⟨hs2, hlen2, -⟩ := readBytes_some h2
        cases h3 : readTable n s2 with
        | none => simp only [h3] at h; exact Option.noConfusion h
        | some v3 =>
          obtain ⟨tbl', rest'⟩ := v3
          simp only [h3] at h
          injection h with h'
          injection h' with h4 h5
          subst h5
          have hbs : Bytes ob ∧ Bytes cb ∧ Bytes s2 := by
            rw [hs1, bytes_append] at hb
            have hb2 := hb.2
            rw [hs2, bytes_append] at hb2
            exact ⟨hb.1, hb2.1, hb2.2⟩
          obtain ⟨hob, hcb, hs2b⟩ := hbs
          obtain ⟨hrec, hlen, hEr⟩ := ih hs2b h3
          subst h4
          refine ⟨?_, by simp [hlen], ?_⟩
          · rw [hs1, hs2, hrec]
            simp only [tableBytes, List.flatMap_cons]
            rw [toLE64_fromLE64 hob hlen1, toLE64_fromLE64 hcb hlen2]
            simp [List.append_assoc, tableBytes]
          · intro p hp
            rcases List.mem_cons.mp hp with h | h
            · subst h
              exact ⟨fromLE64_lt hob hlen1, fromLE64_lt hcb hlen2⟩
            · exact hEr p h

theorem readBytes_take_none {a r : List Nat} {k t : Nat} (_hk : a.length = k)
    (ht : t < k) : readBytes k ((a ++ r).take t) = none := by
  refine readBytes_none ?_
  have : ((a ++ r).take t).length ≤ t := by
    rw [List.length_take]; exact min_le_left _ _
  omega

theorem readBytes_take_some {a r : List Nat} {k t : Nat} (hk : a.length = k)
    (ht : k ≤ t) : readBytes k ((a ++ r).take t) = some (a, r.take (t - k)) := by
  rw [List.take_append_eq_append_take,
    List.take_of_length_le (by omega : a.length ≤ t), hk]
  exact readBytes_exact hk _

/-- Full characterization of `handle_decompression`'s parse phase on any
front-truncation of a serialized container: truncating anywhere before the
payload region makes the parse fail, and truncating inside the payload
region parses successfully with the shortened payload (the code reads "all
remaining bytes" as the payload without consulting the chunk table). -/
theorem parse_take (hdr : List Nat) (tbl : List (Nat × Nat))
    (payload : List Nat) (hH : hdr.length < 2 ^ 64) (hK : tbl.length < 2 ^ 64)
    (hE : ∀ p ∈ tbl, p.1 < 2 ^ 64 ∧ p.2 < 2 ^ 64) (t : Nat) :
    (t < 24 + hdr.length + 16 * tbl.length →
      ∃ e, (parseContainer ((serializeContainer ⟨hdr, tbl, payload⟩).take t)).2
        = .error e) ∧
    (24 + hdr.length + 16 * tbl.length ≤ t →
      (parseContainer ((serializeContainer ⟨hdr, tbl, payload⟩).take t)).2 =
        .ok ⟨hdr, tbl, payload.take (t - (24 + hdr.length + 16 * tbl.length))⟩)
    := by
  have hsig : (KANG_SIGNATURE).length = 8 := rfl
  have hassoc : serializeContainer ⟨hdr, tbl, payload⟩ =
      KANG_SIGNATURE ++ (toLE64 hdr.length ++ (hdr ++ (toLE64 tbl.length ++
        (tableBytes tbl ++ payload)))) := by
    simp [serializeContainer, List.append_assoc]
  rw [hassoc]
  by_cases t1 : t < 8
  · constructor
    · intro ht
      exact ⟨.badSignature, by simp [parseContainer, readBytes_take_none hsig t1]⟩
    · intro ht; omega
  · have e1 := readBytes_take_some (r := toLE64 hdr.length ++ (hdr ++
      (toLE64 tbl.length ++ (tableBytes tbl ++ payload)))) hsig
      (Nat.le_of_not_lt t1)
    by_cases t2 : t - 8 < 8
    · constructor
      · intro ht
        exact ⟨.headerSizeRead, by
          simp [parseContainer, e1, readBytes_take_none (toLE64_length _) t2]⟩
      · intro ht; omega
    · have e2 := readBytes_take_some (r := hdr ++ (toLE64 tbl.length ++
        (tableBytes tbl ++ payload))) (toLE64_length hdr.length)
        (Nat.le_of_not_lt t2)
      by_cases t3 : t - 8 - 8 < hdr.length
      · constructor
        · intro ht
          exact ⟨.headerRead, by
            simp [parseContainer, e1, e2, fromLE64_toLE64_of_lt hH,
              readBytes_take_none (rfl : hdr.length = hdr.length) t3]⟩
        · intro ht; omega
      · have e3 := readBytes_take_some (r := toLE64 tbl.length ++
          (tableBytes tbl ++ payload)) (rfl : hdr.length = hdr.length)
          (Nat.le_of_not_lt t3)
        by_cases t4 : t - 8 - 8 - hdr.length < 8
        · constructor
          · intro ht
            exact ⟨.numChunksRead, by
              simp [parseContainer, e1, e2, e3, fromLE64_toLE64_of_lt hH,
                readBytes_take_none (toLE64_length _) t4]⟩
          · intro ht; omega
        · have e4 := readBytes_take_some (r := tableBytes tbl ++ payload)
            (toLE64_length tbl.length) (Nat.le_of_not_lt t4)
          by_cases t5 : t - 8 - 8 - hdr.length - 8 < 16 * tbl.length
          · have hn5 : readTable tbl.length
                ((tableBytes tbl ++ payload).take
                  (t - 8 - 8 - hdr.length - 8)) = none := by
              refine readTable_none ?_
              have : ((tableBytes tbl ++ payload).take
                  (t - 8 - 8 - hdr.length - 8)).length ≤
                  t - 8 - 8 - hdr.length - 8 := by
                rw [List.length_take]; exact min_le_left _ _
              omega
            constructor
            · intro ht
              exact ⟨.chunkInfoRead, by
                simp [parseContainer, e1, e2, e3, e4,
                  fromLE64_toLE64_of_lt hH, fromLE64_toLE64_of_lt hK, hn5]⟩
            · intro ht; omega
          · have hq : (tableBytes tbl ++ payload).take
                (t - 8 - 8 - hdr.length - 8) =
                tableBytes tbl ++ payload.take
                  (t - 8 - 8 - hdr.length - 8 - 16 * tbl.length) := by
              rw [List.take_append_eq_append_take,
                List.take_of_length_le
                  (by rw [tableBytes_length]; omega), tableBytes_length]
            have e5 : readTable tbl.length
                ((tableBytes tbl ++ payload).take
                  (t - 8 - 8 - hdr.length - 8)) =
                some (tbl, payload.take
                  (t - 8 - 8 - hdr.length - 8 - 16 * tbl.length)) := by
              rw [hq]; exact readTable_exact hE _
            constructor
            · intro ht; omega
            · intro ht
              have harith : t - 8 - 8 - hdr.length - 8 - 16 * tbl.length =
                  t - (24 + hdr.length + 16 * tbl.length) := by omega
              simp [parseContainer, e1, e2, e3, e4, e5,
                fromLE64_toLE64_of_lt hH, fromLE64_toLE64_of_lt hK, harith]

theorem serializeContainer_length (r : CompressionResult) :
    (serializeContainer r).length = 24 + r.compressed_header.length +
      16 * r.chunk_info.length + r.compressed_tensors.length := by
  simp only [serializeContainer, List.length_append, tableBytes_length,
    toLE64_length]
  have : (KANG_SIGNATURE).length = 8 := rfl
  omega

theorem parse_serializeContainer (hdr : List Nat) (tbl : List (Nat × Nat))
    (payload : List Nat) (hH : hdr.length < 2 ^ 64) (hK : tbl.length < 2 ^ 64)
    (hE : ∀ p ∈ tbl, p.1 < 2 ^ 64 ∧ p.2 < 2 ^ 64) :
    (parseContainer (serializeContainer ⟨hdr, tbl, payload⟩)).2 =
      .ok ⟨hdr, tbl, payload⟩ := by
  have h := (parse_take hdr tbl payload hH hK hE
    (serializeContainer ⟨hdr, tbl, payload⟩).length).2
  rw [List.take_length] at h
  have hlen := serializeContainer_length ⟨hdr, tbl, payload⟩
  simp only at hlen
  have h2 := h (by omega)
  rw [show (serializeContainer ⟨hdr, tbl, payload⟩).length -
      (24 + hdr.length + 16 * tbl.length) = payload.length by omega,
    List.take_length] at h2
  exact h2

theorem decompChunks_roundtrip (c : Codec) (lvl : Int) :
    ∀ (chunks : List (List Nat)), (∀ ch ∈ chunks, ch.length < 2 ^ 63) →
      decompChunks c (chunks.map fun ch => (ch.length, (c.comp lvl ch).length))
        ((chunks.map (c.comp lvl)).flatten) = .ok chunks.flatten := by
  intro chunks
  induction chunks with
  | nil => intro h; simp [decompChunks]
  | cons ch rest ih =>
    intro h
    have hch := h ch (List.mem_cons_self _ _)
    have hrest : ∀ x ∈ rest, x.length < 2 ^ 63 :=
      fun x hx => h x (List.mem_cons_of_mem _ hx)
    have h1 : (c.comp lvl ch ++ (rest.map (c.comp lvl)).flatten).take
        (c.comp lvl ch).length = c.comp lvl ch := take_append_exact rfl _
    have h2 : (c.comp lvl ch ++ (rest.map (c.comp lvl)).flatten).drop
        (c.comp lvl ch).length = (rest.map (c.comp lvl)).flatten :=
      drop_append_exact rfl _
    simp only [List.map_cons, List.flatten_cons, decompChunks, h1, h2,
      c.decomp_comp lvl ch hch, ih hrest]
    simp

theorem decompChunks_truncated (c : Codec) (lvl : Int) :
    ∀ (chunks : List (List Nat)) (p : List Nat),
      (∀ ch ∈ chunks, ch.length < 2 ^ 63) →
      p <+: (chunks.map (c.comp lvl)).flatten →
      p.length < ((chunks.map (c.comp lvl)).flatten).length →
      decompChunks c (chunks.map fun ch => (ch.length, (c.comp lvl ch).length))
        p = .error .codec := by
  intro chunks
  induction chunks with
  | nil => intro p h hp hl; simp at hl
  | cons ch rest ih =>
    intro p h hp hl
    have hch := h ch (List.mem_cons_self _ _)
    have hrest : ∀ x ∈ rest, x.length < 2 ^ 63 :=
      fun x hx => h x (List.mem_cons_of_mem _ hx)
    simp only [List.map_cons, List.flatten_cons] at hp hl
    by_cases hk : p.length < (c.comp lvl ch).length
    · have hpre : p <+: c.comp lvl ch :=
        prefix_of_prefix_length_le hp (Nat.le_of_lt hk)
      have hne : p ≠ c.comp lvl ch := by
        intro heq; rw [heq] at hk; omega
      have hdec : c.decomp (p.take (c.comp lvl ch).length) = none := by
        rw [List.take_of_length_le (Nat.le_of_lt hk)]
        exact c.decomp_prefix lvl ch p hch hpre hne
      simp only [decompChunks, hdec]
    · have hkle := Nat.le_of_not_lt hk
      have htake : p.take (c.comp lvl ch).length = c.comp lvl ch := by
        have hx := prefix_take_eq hp (k := (c.comp lvl ch).length) hkle
        rw [take_append_exact rfl] at hx
        exact hx.symm
      have hdrop : p.drop (c.comp lvl ch).length <+:
          (rest.map (c.comp lvl)).flatten := by
        have hx := prefix_drop hp (k := (c.comp lvl ch).length) hkle
        rw [drop_append_exact rfl] at hx
        exact hx
      have hdl : (p.drop (c.comp lvl ch).length).length <
          ((rest.map (c.comp lvl)).flatten).length := by
        rw [List.length_drop]
        rw [List.length_append] at hl
        omega
      have hrec := ih (p.drop (c.comp lvl ch).length) hrest hdrop hdl
      simp only [decompChunks, htake, c.decomp_comp lvl ch hch, hrec]
      simp

theorem flatten_table_writes (tbl : List (Nat × Nat)) :
    (tbl.flatMap fun p => [toLE64 p.1, toLE64 p.2]).flatten =
      tableBytes tbl := by
  induction tbl with
  | nil => simp [tableBytes]
  | cons p rest ih =>
    simp [tableBytes, List.append_assoc] at ih ⊢
    rw [ih]

theorem writes_flatten_eq (r : CompressionResult) :
    (compressionWrites r).flatten = serializeContainer r := by
  by_cases hp : r.compressed_tensors = []
  · simp [hp, compressionWrites, serializeContainer, flatten_table_writes,
      List.append_assoc]
  · simp [hp, compressionWrites, serializeContainer, flatten_table_writes,
      List.append_assoc]

/-- Unfolding equation of `handle_compression` with its `let` bindings
resolved. -/
theorem handle_compression_eq (c : Codec) (lvl : Int) (buf : List Nat) :
    handle_compression c lvl buf =
      if buf.length < 8 then ([], .error .tooSmall)
      else if buf.length < (8 + fromLE64 (buf.take 8)) % 2 ^ 64 then
        ([], .error .headerSizeMismatch)
      else
        (compressionWrites (compress_safetensor c lvl
            ((buf.drop 8).take (fromLE64 (buf.take 8)))
            (buf.drop (8 + fromLE64 (buf.take 8)))),
         .ok (compressionWrites (compress_safetensor c lvl
            ((buf.drop 8).take (fromLE64 (buf.take 8)))
            (buf.drop (8 + fromLE64 (buf.take 8))))).flatten) := rfl

theorem handle_compression_success {c : Codec} {lvl : Int} {buf : List Nat}
    (h8 : ¬ buf.length < 8)
    (hchk : ¬ buf.length < (8 + fromLE64 (buf.take 8)) % 2 ^ 64) :
    (handle_compression c lvl buf).2 = .ok (serializeContainer
      (compress_safetensor c lvl
        ((buf.drop 8).take (fromLE64 (buf.take 8)))
        (buf.drop (8 + fromLE64 (buf.take 8))))) := by
  rw [handle_compression_eq, if_neg h8, if_neg hchk]
  simp only [writes_flatten_eq]

theorem handle_compression_ok_out {c : Codec} {lvl : Int}
    {buf out : List Nat} (h : (handle_compression c lvl buf).2 = .ok out) :
    out = serializeContainer (compress_safetensor c lvl
      ((buf.drop 8).take (fromLE64 (buf.take 8)))
      (buf.drop (8 + fromLE64 (buf.take 8)))) := by
  rw [handle_compression_eq] at h
  split at h
  · simp at h
  · split at h
    · simp at h
    · simp only at h
      injection h with h'
      rw [← h']
      exact writes_flatten_eq _

/-- The header size a stream declares in its bytes `[8..16)`
(`main.cpp` lines 127–128). -/
def declaredHeaderSize (s : List Nat) : Nat := fromLE64 ((s.drop 8).take 8)

/-- The chunk count a stream declares in the 8 bytes following the
compressed header (`main.cpp` lines 133–134). -/
def declaredChunkCount (s : List Nat) : Nat :=
  fromLE64 ((s.drop (16 + declaredHeaderSize s)).take 8)

theorem parse_sound {s : List Nat} (hb : Bytes s) {cont : CompressionResult}
    (h : (parseContainer s).2 = .ok cont) :
    s = serializeContainer cont ∧ cont.compressed_header.length < 2 ^ 64 ∧
      cont.chunk_info.length < 2 ^ 64 := by
  simp only [parseContainer] at h
  cases h1 : readBytes 8 s with
  | none => simp only [h1] at h; exact Except.noConfusion h
  | some v1 =>
    obtain ⟨sig, s1⟩ := v1
    simp only [h1] at h
    obtain ⟨hs1, hlen1, -⟩ := readBytes_some h1
    by_cases hsg : sig = KANG_SIGNATURE
    · rw [if_pos hsg] at h
      cases h2 : readBytes 8 s1 with
      | none => simp only [h2] at h; exact Except.noConfusion h
      | some v2 =>
        obtain ⟨hb8, s2⟩ := v2
        simp only [h2] at h
        obtain ⟨hs2, hlen2, -⟩ := readBytes_some h2
        cases h3 : readBytes (fromLE64 hb8) s2 with
        | none => simp only [h3] at h; exact Except.noConfusion h
        | some v3 =>
          obtain ⟨hdr, s3⟩ := v3
          simp only [h3] at h
          obtain ⟨hs3, hlen3, -⟩ := readBytes_some h3
          cases h4 : readBytes 8 s3 with
          | none => simp only [h4] at h; exact Except.noConfusion h
          | some v4 =>
            obtain ⟨kb, s4⟩ := v4
            simp only [h4] at h
            obtain ⟨hs4, hlen4, -⟩ := readBytes_some h4
            cases h5 : readTable (fromLE64 kb) s4 with
            | none => simp only [h5] at h; exact Except.noConfusion h
            | some v5 =>
              obtain ⟨tbl, s5⟩ := v5
              simp only [h5] at h
              injection h with h'
              subst h'
              rw [hs1, bytes_append] at hb
              obtain ⟨hbsig, hb⟩ := hb
              rw [hs2, bytes_append] at hb
              obtain ⟨hbhb8, hb⟩ := hb
              rw [hs3, bytes_append] at hb
              obtain ⟨hbhdr, hb⟩ := hb
              rw [hs4, bytes_append] at hb
              obtain ⟨hbkb, hb⟩ := hb
              obtain ⟨hs5, htbl_len, -⟩ := readTable_sound hb h5
              have ehb8 : toLE64 hdr.length = hb8 := by
                rw [hlen3]; exact toLE64_fromLE64 hbhb8 hlen2
              have ekb : toLE64 tbl.length = kb := by
                rw [htbl_len]; exact toLE64_fromLE64 hbkb hlen4
              refine ⟨?_, ?_, ?_⟩
              · rw [hs1, hs2, hs3, hs4, hs5, hsg]
                simp [serializeContainer, List.append_assoc, ehb8, ekb]
              · simp only
                rw [hlen3]
                exact fromLE64_lt hbhb8 hlen2
              · simp only
                rw [htbl_len]
                exact fromLE64_lt hbkb hlen4
    · rw [if_neg hsg] at h
      exact Except.noConfusion h

theorem declared_serialize (cont : CompressionResult)
    (hH : cont.compressed_header.length < 2 ^ 64)
    (hK : cont.chunk_info.length < 2 ^ 64) :
    declaredHeaderSize (serializeContainer cont) =
      cont.compressed_header.length ∧
    declaredChunkCount (serializeContainer cont) = cont.chunk_info.length := by
  have hassoc : serializeContainer cont =
      KANG_SIGNATURE ++ (toLE64 cont.compressed_header.length ++
        (cont.compressed_header ++ (toLE64 cont.chunk_info.length ++
          (tableBytes cont.chunk_info ++ cont.compressed_tensors)))) := by
    simp [serializeContainer, List.append_assoc]
  have hk8 : (KANG_SIGNATURE).length = 8 := rfl
  have hH' : declaredHeaderSize (serializeContainer cont) =
      cont.compressed_header.length := by
    rw [declaredHeaderSize, hassoc, drop_append_exact hk8,
      take_append_exact (toLE64_length _), fromLE64_toLE64_of_lt hH]
  refine ⟨hH', ?_⟩
  have hassoc2 : serializeContainer cont =
      (KANG_SIGNATURE ++ toLE64 cont.compressed_header.length ++
        cont.compressed_header) ++ (toLE64 cont.chunk_info.length ++
          (tableBytes cont.chunk_info ++ cont.compressed_tensors)) := by
    simp [serializeContainer, List.append_assoc]
  have hlen16 : (KANG_SIGNATURE ++ toLE64 cont.compressed_header.length ++
      cont.compressed_header).length = 16 + cont.compressed_header.length := by
    simp only [List.length_append, toLE64_length, hk8]
  rw [declaredChunkCount, hH', hassoc2, drop_append_exact hlen16,
    take_append_exact (toLE64_length _), fromLE64_toLE64_of_lt hK]

theorem handle_decompression_parse_error {c : Codec} {s : List Nat}
    {e : FormatErr} (h : (parseContainer s).2 = .error e) :
    handle_decompression c s = ([], .error (.format e)) := by
  simp only [handle_decompression, h]

theorem handle_decompression_engine_error {c : Codec} {s : List Nat}
    {cont : CompressionResult} {e : EngErr}
    (hp : (parseContainer s).2 = .ok cont)
    (hd : decompress_kang c cont.compressed_header cont.compressed_tensors
      cont.chunk_info = .error e) :
    handle_decompression c s = ([], .error (.engine e)) := by
  simp only [handle_decompression, hp, hd]

theorem handle_decompression_ok_eq {c : Codec} {s : List Nat}
    {cont : CompressionResult} {m t : List Nat}
    (hp : (parseContainer s).2 = .ok cont)
    (hd : decompress_kang c cont.compressed_header cont.compressed_tensors
      cont.chunk_info = .ok (m, t)) :
    handle_decompression c s =
      (decompressionWrites m t, .ok (decompressionWrites m t).flatten) := by
  simp only [handle_decompression, hp, hd]

theorem decompressionWrites_flatten (m t : List Nat) :
    (decompressionWrites m t).flatten = toLE64 m.length ++ (m ++ t) := by
  by_cases ht : t = [] <;> simp [decompressionWrites, ht]

theorem decompress_kang_roundtrip (c : Codec) (lvl : Int) (m : List Nat)
    (chunks : List (List Nat)) (hm : m.length < 2 ^ 63)
    (hchunks : ∀ ch ∈ chunks, ch.length < 2 ^ 63) :
    decompress_kang c (c.comp lvl m) ((chunks.map (c.comp lvl)).flatten)
      (chunks.map fun ch => (ch.length, (c.comp lvl ch).length)) =
      .ok (m, chunks.flatten) := by
  simp only [decompress_kang, c.decomp_comp lvl m hm,
    decompChunks_roundtrip c lvl chunks hchunks]

theorem compression_normal (c : Codec) (lvl : Int) (buf : List Nat)
    (h8 : 8 ≤ buf.length) (hsz : buf.length < 2 ^ 63)
    (hval : 8 + fromLE64 (buf.take 8) ≤ buf.length) :
    (handle_compression c lvl buf).2 = .ok (serializeContainer
      (compress_safetensor c lvl
        ((buf.drop 8).take (fromLE64 (buf.take 8)))
        (buf.drop (8 + fromLE64 (buf.take 8))))) := by
  refine handle_compression_success (by omega) ?_
  have hmod : (8 + fromLE64 (buf.take 8)) % 2 ^ 64 = 8 + fromLE64 (buf.take 8) :=
    Nat.mod_eq_of_lt (by omega)
  omega

theorem parse_decompress_of_compress (c : Codec) (lvl : Int)
    (M T : List Nat) (hM : M.length < 2 ^ 63) (hT : T.length < 2 ^ 63) :
    (parseContainer (serializeContainer (compress_safetensor c lvl M T))).2 =
      .ok (compress_safetensor c lvl M T) ∧
    decompress_kang c (compress_safetensor c lvl M T).compressed_header
      (compress_safetensor c lvl M T).compressed_tensors
      (compress_safetensor c lvl M T).chunk_info = .ok (M, T) := by
  have hcs : 0 < CHUNK_SIZE := by decide
  have hr : compress_safetensor c lvl M T =
      ⟨c.comp lvl M,
       (planChunks CHUNK_SIZE T).map fun ch => (ch.length, (c.comp lvl ch).length),
       ((planChunks CHUNK_SIZE T).map (c.comp lvl)).flatten⟩ := rfl
  have hchlt : ∀ ch ∈ planChunks CHUNK_SIZE T, ch.length < 2 ^ 63 :=
    fun ch hch => lt_of_le_of_lt (planChunks_mem_length hch) hT
  have hH : (c.comp lvl M).length < 2 ^ 64 := c.comp_lt lvl M hM
  have hK : ((planChunks CHUNK_SIZE T).map fun ch =>
      (ch.length, (c.comp lvl ch).length)).length < 2 ^ 64 := by
    rw [List.length_map]
    have := planChunks_count hcs T
    omega
  have hE : ∀ p ∈ (planChunks CHUNK_SIZE T).map fun ch =>
      (ch.length, (c.comp lvl ch).length), p.1 < 2 ^ 64 ∧ p.2 < 2 ^ 64 := by
    intro p hp
    obtain ⟨ch, hch, rfl⟩ := List.mem_map.mp hp
    have hle := planChunks_mem_length hch
    exact ⟨by omega, c.comp_lt lvl ch (hchlt ch hch)⟩
  constructor
  · rw [hr]
    exact parse_serializeContainer _ _ _ hH hK hE
  · rw [hr]
    have hrt := decompress_kang_roundtrip c lvl M (planChunks CHUNK_SIZE T)
      hM hchlt
    rw [planChunks_flatten hcs T] at hrt
    exact hrt

/-- C1: compressing a valid safetensors buffer and decompressing the result
returns the original buffer bit-for-bit, for every codec satisfying the
spec's codec laws and every level.  Validity of the buffer is what
`handle_compression` itself checks: at least 8 bytes, and the declared
header length fitting inside the buffer (all buffers are byte lists of
`size_t`-realizable length, below `2 ^ 63`). -/
theorem C1_round_trip (c : Codec) (lvl : Int) (buf : List Nat)
    (hbytes : Bytes buf) (h8 : 8 ≤ buf.length) (hsz : buf.length < 2 ^ 63)
    (hval : 8 + fromLE64 (buf.take 8) ≤ buf.length) :
    ∃ out, (handle_compression c lvl buf).2 = .ok out ∧
      (handle_decompression c out).2 = .ok buf := by
  have hcomp := compression_normal c lvl buf h8 hsz hval
  have htake8 : (buf.take 8).length = 8 := by rw [List.length_take]; omega
  have hMlen : ((buf.drop 8).take (fromLE64 (buf.take 8))).length =
      fromLE64 (buf.take 8) := by
    rw [List.length_take, List.length_drop]; omega
  have hMlt : ((buf.drop 8).take (fromLE64 (buf.take 8))).length < 2 ^ 63 := by
    rw [hMlen]; omega
  have hTlt : (buf.drop (8 + fromLE64 (buf.take 8))).length < 2 ^ 63 := by
    rw [List.length_drop]; omega
  obtain ⟨hparse, hdec⟩ := parse_decompress_of_compress c lvl
    ((buf.drop 8).take (fromLE64 (buf.take 8)))
    (buf.drop (8 + fromLE64 (buf.take 8))) hMlt hTlt
  refine ⟨_, hcomp, ?_⟩
  rw [handle_decompression_ok_eq hparse hdec]
  simp only [decompressionWrites_flatten]
  rw [hMlen, toLE64_fromLE64 (bytes_take hbytes 8) htake8]
  rw [show buf.drop (8 + fromLE64 (buf.take 8)) =
      (buf.drop 8).drop (fromLE64 (buf.take 8)) from
    (List.drop_drop _ _ _).symm]
  rw [List.take_append_drop, List.take_append_drop]

theorem truncated_serialize_error (c : Codec) (lvl : Int) (M : List Nat)
    (chunks : List (List Nat)) (hM : M.length < 2 ^ 63)
    (hch : ∀ ch ∈ chunks, ch.length < 2 ^ 63) (hK0 : chunks.length < 2 ^ 64)
    (t : Nat)
    (ht : t < (serializeContainer ⟨c.comp lvl M,
      chunks.map fun ch => (ch.length, (c.comp lvl ch).length),
      (chunks.map (c.comp lvl)).flatten⟩).length) :
    (∃ fe, (handle_decompression c ((serializeContainer ⟨c.comp lvl M,
      chunks.map fun ch => (ch.length, (c.comp lvl ch).length),
      (chunks.map (c.comp lvl)).flatten⟩).take t)).2 = .error (.format fe)) ∨
    (handle_decompression c ((serializeContainer ⟨c.comp lvl M,
      chunks.map fun ch => (ch.length, (c.comp lvl ch).length),
      (chunks.map (c.comp lvl)).flatten⟩).take t)).2 =
        .error (.engine .codec) := by
  have hH : (c.comp lvl M).length < 2 ^ 64 := c.comp_lt lvl M hM
  have hK : (chunks.map fun ch =>
      (ch.length, (c.comp lvl ch).length)).length < 2 ^ 64 := by
    rw [List.length_map]; exact hK0
  have hE : ∀ p ∈ chunks.map fun ch => (ch.length, (c.comp lvl ch).length),
      p.1 < 2 ^ 64 ∧ p.2 < 2 ^ 64 := by
    intro p hp
    obtain ⟨ch, hmem, rfl⟩ := List.mem_map.mp hp
    have := hch ch hmem
    exact ⟨by omega, c.comp_lt lvl ch (hch ch hmem)⟩
  have hpt := parse_take (c.comp lvl M)
    (chunks.map fun ch => (ch.length, (c.comp lvl ch).length))
    ((chunks.map (c.comp lvl)).flatten) hH hK hE t
  by_cases hcase : t < 24 + (c.comp lvl M).length +
      16 * (chunks.map fun ch => (ch.length, (c.comp lvl ch).length)).length
  · obtain ⟨e, he⟩ := hpt.1 hcase
    exact Or.inl ⟨e, by rw [handle_decompression_parse_error he]⟩
  · have hge := Nat.le_of_not_lt hcase
    have hok := hpt.2 hge
    have hlen := serializeContainer_length ⟨c.comp lvl M,
      chunks.map fun ch => (ch.length, (c.comp lvl ch).length),
      (chunks.map (c.comp lvl)).flatten⟩
    simp only at hlen
    have hplen : t - (24 + (c.comp lvl M).length +
        16 * (chunks.map fun ch => (ch.length, (c.comp lvl ch).length)).length)
        < ((chunks.map (c.comp lvl)).flatten).length := by omega
    have htl : (((chunks.map (c.comp lvl)).flatten).take
        (t - (24 + (c.comp lvl M).length +
          16 * (chunks.map fun ch =>
            (ch.length, (c.comp lvl ch).length)).length))).length <
        ((chunks.map (c.comp lvl)).flatten).length := by
      rw [List.length_take]; omega

    have htrunc := decompChunks_truncated c lvl chunks
      (((chunks.map (c.comp lvl)).flatten).take
        (t - (24 + (c.comp lvl M).length +
          16 * (chunks.map fun ch =>
            (ch.length, (c.comp lvl ch).length)).length)))
      hch (List.take_prefix _ _) htl
    have hdk : decompress_kang c (c.comp lvl M)
        (((chunks.map (c.comp lvl)).flatten).take
          (t - (24 + (c.comp lvl M).length +
            16 * (chunks.map fun ch =>
              (ch.length, (c.comp lvl ch).length)).length)))
        (chunks.map fun ch => (ch.length, (c.comp lvl ch).length)) =
        .error .codec := by
      simp only [decompress_kang, c.decomp_comp lvl M hM, htrunc]
    exact Or.inr (by rw [handle_decompression_engine_error hok hdk])

/-- A small valid safetensors buffer used to instantiate witnesses:
declared header length 2, metadata bytes `{}` (ASCII 123, 125), tensor
bytes `[7, 8, 9]`. -/
def b0 : List Nat := toLE64 2 ++ [123, 125, 7, 8, 9]

/-- The container `handle_compression` writes for `b0` with the witness
codec at level 10. -/
def kang0 : List Nat := (handle_compression lenCodec 10 b0).1.flatten

/-- C1 witness: the round trip evaluated on the concrete buffer `b0` with
the concrete codec `lenCodec` at level 10. -/
theorem C1_witness :
    ∃ out, (handle_compression lenCodec 10 b0).2 = .ok out ∧
      (handle_decompression lenCodec out).2 = .ok b0 :=
  C1_round_trip lenCodec 10 b0 (by decide) (by decide) (by decide) (by decide)

/-- C5: truncating any number of trailing bytes off a compressed container
makes decompression fail with a FormatError (truncation before the payload
region) or a CodecError (truncation inside the payload region); it never
returns a successful result. -/
theorem C5_truncated_container_fails (c : Codec) (lvl : Int)
    (buf out : List Nat) (t : Nat)
    (h8 : 8 ≤ buf.length) (hsz : buf.length < 2 ^ 63)
    (hval : 8 + fromLE64 (buf.take 8) ≤ buf.length)
    (hout : (handle_compression c lvl buf).2 = .ok out)
    (ht : t < out.length) :
    (∃ fe, (handle_decompression c (out.take t)).2 = .error (.format fe)) ∨
      (handle_decompression c (out.take t)).2 = .error (.engine .codec) := by
  have hser := handle_compression_ok_out hout
  subst hser
  have hMlen : ((buf.drop 8).take (fromLE64 (buf.take 8))).length =
      fromLE64 (buf.take 8) := by
    rw [List.length_take, List.length_drop]; omega
  have hMlt : ((buf.drop 8).take (fromLE64 (buf.take 8))).length < 2 ^ 63 := by
    rw [hMlen]; omega
  have hTlt : (buf.drop (8 + fromLE64 (buf.take 8))).length < 2 ^ 63 := by
    rw [List.length_drop]; omega
  have hcs : 0 < CHUNK_SIZE := by decide
  have hch : ∀ ch ∈ planChunks CHUNK_SIZE
      (buf.drop (8 + fromLE64 (buf.take 8))), ch.length < 2 ^ 63 :=
    fun ch hc => lt_of_le_of_lt (planChunks_mem_length hc) hTlt
  have hK0 : (planChunks CHUNK_SIZE
      (buf.drop (8 + fromLE64 (buf.take 8)))).length < 2 ^ 64 := by
    have := planChunks_count hcs (buf.drop (8 + fromLE64 (buf.take 8)))
    omega
  have hr : compress_safetensor c lvl
      ((buf.drop 8).take (fromLE64 (buf.take 8)))
      (buf.drop (8 + fromLE64 (buf.take 8))) =
      ⟨c.comp lvl ((buf.drop 8).take (fromLE64 (buf.take 8))),
       (planChunks CHUNK_SIZE (buf.drop (8 + fromLE64 (buf.take 8)))).map
         fun ch => (ch.length, (c.comp lvl ch).length),
       ((planChunks CHUNK_SIZE (buf.drop (8 + fromLE64 (buf.take 8)))).map
         (c.comp lvl)).flatten⟩ := rfl
  rw [hr] at ht ⊢
  exact truncated_serialize_error c lvl
    ((buf.drop 8).take (fromLE64 (buf.take 8)))
    (planChunks CHUNK_SIZE (buf.drop (8 + fromLE64 (buf.take 8))))
    hMlt hch hK0 t ht

/-- C5 witness: truncating the last byte of the concrete 61-byte container
for `b0` makes decompression fail. -/
theorem C5_witness :
    (∃ fe, (handle_decompression lenCodec (kang0.take 60)).2 =
      .error (.format fe)) ∨
    (handle_decompression lenCodec (kang0.take 60)).2 =
      .error (.engine .codec) :=
  C5_truncated_container_fails lenCodec 10 b0 kang0 60 (by decide) (by decide)
    (by decide) (by rfl) (by decide)

/-- C2 amended: parsing fails with a FormatError whenever the stream is too
short for a declared size that drives a read (the declared header size, or
the declared chunk count's table), and every successfully parsed byte
stream is exactly the serialization of the returned container — in
particular the payload is all remaining bytes, with no check of the
declared chunk sizes' sum.  (The original claim's further assertion that
declared sizes are bound-checked before buffers are allocated is refuted by
`C2_counterexample`.) -/
theorem C2_parse_bounds (s : List Nat) (hb : Bytes s) :
    ((s.length < 16 + declaredHeaderSize s ∨
        s.length < 24 + declaredHeaderSize s + 16 * declaredChunkCount s) →
      ∃ e, (parseContainer s).2 = .error e) ∧
    (∀ cont, (parseContainer s).2 = .ok cont →
      s = serializeContainer cont) := by
  refine ⟨?_, fun cont h => (parse_sound hb h).1⟩
  intro hcase
  cases hres : (parseContainer s).2 with
  | error e => exact ⟨e, rfl⟩
  | ok cont =>
    exfalso
    obtain ⟨hs, hH, hK⟩ := parse_sound hb hres
    obtain ⟨hdh, hdc⟩ := declared_serialize cont hH hK
    rw [hs, hdh, hdc] at hcase
    have hlen := serializeContainer_length cont
    omega

/-- A concrete stream: valid signature, declared header size 0, declared
chunk count 1, one table entry `(5, 100)`, and no payload bytes. -/
def c2sum : List Nat :=
  KANG_SIGNATURE ++ toLE64 0 ++ toLE64 1 ++ toLE64 5 ++ toLE64 100

/-- A concrete 16-byte stream: valid signature and a declared header size
of `2 ^ 63` with no further bytes. -/
def c2big : List Nat := KANG_SIGNATURE ++ toLE64 (2 ^ 63)

/-- C2 witness: the parse-boundedness theorem evaluated on the concrete
stream `c2sum`. -/
theorem C2_witness :
    ((c2sum.length < 16 + declaredHeaderSize c2sum ∨
        c2sum.length < 24 + declaredHeaderSize c2sum +
          16 * declaredChunkCount c2sum) →
      ∃ e, (parseContainer c2sum).2 = .error e) ∧
    (∀ cont, (parseContainer c2sum).2 = .ok cont →
      c2sum = serializeContainer cont) :=
  C2_parse_bounds c2sum (by decide)

/-- C2 counterexample: the claim as stated is false on the code in two
places.  (1) The 16-byte stream `c2big` declaring a `2 ^ 63`-byte header
makes the parser allocate a buffer of that declared size (the recorded
allocation pair `(2 ^ 63, 0)`) while 0 stream bytes remain — the
availability check happens only after the allocation, so declared sizes
are not bound-checked before buffers are allocated.  (2) The stream
`c2sum`, declaring one chunk of compressed size 100 but carrying 0 payload
bytes, parses successfully even though the declared sizes' sum exceeds the
remaining stream length. -/
theorem C2_counterexample :
    (parseContainer c2big).1 = [(2 ^ 63, 0)] ∧
    (∃ e, (parseContainer c2big).2 = .error e) ∧
    (parseContainer c2sum).2 = .ok ⟨[], [(5, 100)], []⟩ ∧
    100 > ((⟨[], [(5, 100)], []⟩ :
      CompressionResult)).compressed_tensors.length :=
  ⟨rfl, ⟨.headerRead, rfl⟩, rfl, by decide⟩

/-- C3: the claim that a failing single-file operation exits with a
non-zero status is contradicted by the code: `handle_compression` on a
3-byte input reports an error and returns nothing, and `main` still
returns exit status 0 for the invocation. -/
theorem C3_exit_status_zero_on_failure :
    (handle_compression lenCodec 10 [1, 2, 3]).2 = .error .tooSmall ∧
    singleFileExitCode lenCodec .compress 10 [1, 2, 3] = 0 :=
  ⟨rfl, rfl⟩

/-- C4: every successful compression writes exactly the fixed signature,
the 64-bit compressed-header length, the compressed header bytes, the
64-bit chunk count, the chunk table of 64-bit pairs, and then the
compressed payload in full — with no separately stored payload length. -/
theorem C4_container_layout (c : Codec) (lvl : Int) (buf out : List Nat)
    (h : (handle_compression c lvl buf).2 = .ok out) :
    ∃ r, r = compress_safetensor c lvl
        ((buf.drop 8).take (fromLE64 (buf.take 8)))
        (buf.drop (8 + fromLE64 (buf.take 8))) ∧
      out = KANG_SIGNATURE ++ toLE64 r.compressed_header.length ++
        r.compressed_header ++ toLE64 r.chunk_info.length ++
        tableBytes r.chunk_info ++ r.compressed_tensors :=
  ⟨_, rfl, handle_compression_ok_out h⟩

/-- C4 witness: the layout theorem evaluated on the concrete compression of
`b0`. -/
theorem C4_witness :
    ∃ r, r = compress_safetensor lenCodec 10
        ((b0.drop 8).take (fromLE64 (b0.take 8)))
        (b0.drop (8 + fromLE64 (b0.take 8))) ∧
      kang0 = KANG_SIGNATURE ++ toLE64 r.compressed_header.length ++
        r.compressed_header ++ toLE64 r.chunk_info.length ++
        tableBytes r.chunk_info ++ r.compressed_tensors :=
  C4_container_layout lenCodec 10 b0 kang0 (by rfl)

/-- C6: for every input stream whose first 8 bytes differ from the fixed
signature, decompression reports the signature error — independently of the
codec, so before any chunk work — and performs no output-file write. -/
theorem C6_bad_signature_rejected (c : Codec) (s : List Nat)
    (h : s.take 8 ≠ KANG_SIGNATURE) :
    handle_decompression c s = ([], .error (.format .badSignature)) := by
  have hp : (parseContainer s).2 = .error .badSignature := by
    simp only [parseContainer]
    cases h1 : readBytes 8 s with
    | none => rfl
    | some v =>
      obtain ⟨sig, s1⟩ := v
      simp only
      obtain ⟨-, -, htake⟩ := readBytes_some h1
      rw [if_neg (show sig ≠ KANG_SIGNATURE from
        fun hEq => h (htake.symm.trans hEq))]
  rw [handle_decompression_parse_error hp]

/-- C6 witness: the signature-rejection theorem evaluated on the concrete
stream `[0, 1, 2]`. -/
theorem C6_witness :
    handle_decompression lenCodec [0, 1, 2] =
      ([], .error (.format .badSignature)) :=
  C6_bad_signature_rejected lenCodec [0, 1, 2] (by decide)

/-- C7: no output bytes are persisted on failure — whenever compression or
decompression returns an error its write-event list is empty, and on
success the writes are exactly the fully assembled result. -/
theorem C7_no_partial_output (c : Codec) (lvl : Int) (buf s : List Nat) :
    (∀ e, (handle_compression c lvl buf).2 = .error e →
      (handle_compression c lvl buf).1 = []) ∧
    (∀ e, (handle_decompression c s).2 = .error e →
      (handle_decompression c s).1 = []) ∧
    (∀ out, (handle_compression c lvl buf).2 = .ok out →
      (handle_compression c lvl buf).1.flatten = out) ∧
    (∀ out, (handle_decompression c s).2 = .ok out →
      (handle_decompression c s).1.flatten = out) := by
  refine ⟨?_, ?_, ?_, ?_⟩
  · intro e he
    rw [handle_compression_eq]
    by_cases h1 : buf.length < 8
    · rw [if_pos h1]
    · by_cases h2 : buf.length < (8 + fromLE64 (buf.take 8)) % 2 ^ 64
      · rw [if_neg h1, if_pos h2]
      · rw [handle_compression_eq, if_neg h1, if_neg h2] at he
        exact absurd he (by simp)
  · intro e he
    cases hp : (parseContainer s).2 with
    | error pe => rw [handle_decompression_parse_error hp]
    | ok cont =>
      cases hd : decompress_kang c cont.compressed_header
          cont.compressed_tensors cont.chunk_info with
      | error ee => rw [handle_decompression_engine_error hp hd]
      | ok mt =>
        obtain ⟨m, t2⟩ := mt
        rw [handle_decompression_ok_eq hp hd] at he
        exact absurd he (by simp)
  · intro out hout
    rw [handle_compression_eq] at hout ⊢
    by_cases h1 : buf.length < 8
    · rw [if_pos h1] at hout
      exact absurd hout (by simp)
    · by_cases h2 : buf.length < (8 + fromLE64 (buf.take 8)) % 2 ^ 64
      · rw [if_neg h1, if_pos h2] at hout
        exact absurd hout (by simp)
      · rw [if_neg h1, if_neg h2] at hout ⊢
        injection hout
  · intro out hout
    cases hp : (parseContainer s).2 with
    | error pe =>
      rw [handle_decompression_parse_error hp] at hout
      exact absurd hout (by simp)
    | ok cont =>
      cases hd : decompress_kang c cont.compressed_header
          cont.compressed_tensors cont.chunk_info with
      | error ee =>
        rw [handle_decompression_engine_error hp hd] at hout
        exact absurd hout (by simp)
      | ok mt =>
        obtain ⟨m, t2⟩ := mt
        rw [handle_decompression_ok_eq hp hd] at hout ⊢
        injection hout

/-- C8 amended: the command line rejects only a level argument that fails
integer parsing; every parsed integer — including values outside the
documented 1–19 range — is accepted and becomes the compression level with
no range check. -/
theorem C8_level_not_range_checked :
    (∀ z : Int, resolveLevelArg (some z) = .ok z) ∧
    resolveLevelArg none = .error () :=
  ⟨fun _ => rfl, rfl⟩

/-- C8 counterexample: level 100 is outside the documented 1–19 range yet
is accepted by the level-argument handling rather than rejected. -/
theorem C8_counterexample :
    resolveLevelArg (some 100) = .ok 100 ∧
    ¬ (USAGE_LEVEL_MIN ≤ (100 : Int) ∧ (100 : Int) ≤ USAGE_LEVEL_MAX) :=
  ⟨rfl, by decide⟩

/-- C9: every successful decompression writes exactly the 64-bit metadata
length, the metadata bytes, and the tensor bytes — the caller layer
re-adds the outer length prefix. -/
theorem C9_output_reassembly (c : Codec) (s out : List Nat)
    (h : (handle_decompression c s).2 = .ok out) :
    ∃ cont m t, (parseContainer s).2 = .ok cont ∧
      decompress_kang c cont.compressed_header cont.compressed_tensors
        cont.chunk_info = .ok (m, t) ∧
      out = toLE64 m.length ++ m ++ t := by
  cases hp : (parseContainer s).2 with
  | error pe =>
    rw [handle_decompression_parse_error hp] at h
    exact absurd h (by simp)
  | ok cont =>
    cases hd : decompress_kang c cont.compressed_header
        cont.compressed_tensors cont.chunk_info with
    | error ee =>
      rw [handle_decompression_engine_error hp hd] at h
      exact absurd h (by simp)
    | ok mt =>
      obtain ⟨m, t2⟩ := mt
      rw [handle_decompression_ok_eq hp hd] at h
      injection h with h'
      refine ⟨cont, m, t2, rfl, hd, ?_⟩
      rw [← h', decompressionWrites_flatten, List.append_assoc]

/-- C9 witness: the output-layout theorem evaluated on the concrete
container `kang0`, whose decompression output is `b0`. -/
theorem C9_witness :
    ∃ cont m t, (parseContainer kang0).2 = .ok cont ∧
      decompress_kang lenCodec cont.compressed_header
        cont.compressed_tensors cont.chunk_info = .ok (m, t) ∧
      b0 = toLE64 m.length ++ m ++ t :=
  C9_output_reassembly lenCodec kang0 b0 (by rfl)

/-- C10: the compression path's truncation check compares the buffer length
against `8 + header_len` in wrapping 64-bit arithmetic, so for any buffer
of at least 8 bytes a declared header length of at least `2 ^ 64 - 8`
passes the check — and the input is not rejected — even though it exceeds
the buffer length minus 8. -/
theorem C10_wrapping_size_check (c : Codec) (lvl : Int) (buf : List Nat)
    (hbytes : Bytes buf) (h8 : 8 ≤ buf.length) (hn : buf.length < 2 ^ 64)
    (hbig : 2 ^ 64 - 8 ≤ fromLE64 (buf.take 8)) :
    buf.length - 8 < fromLE64 (buf.take 8) ∧
    (handle_compression c lvl buf).2 ≠ .error .headerSizeMismatch := by
  have htake8 : (buf.take 8).length = 8 := by rw [List.length_take]; omega
  have hlt : fromLE64 (buf.take 8) < 2 ^ 64 :=
    fromLE64_lt (bytes_take hbytes 8) htake8
  have hmod : (8 + fromLE64 (buf.take 8)) % 2 ^ 64 =
      8 + fromLE64 (buf.take 8) - 2 ^ 64 := by
    omega
  refine ⟨by omega, ?_⟩
  rw [handle_compression_eq, if_neg (by omega : ¬ buf.length < 8),
    if_neg (show ¬ buf.length < (8 + fromLE64 (buf.take 8)) % 2 ^ 64 by
      rw [hmod]; omega)]
  simp

/-- C10 witness: the wrapping-check theorem evaluated on the concrete
8-byte buffer whose declared header length is `2 ^ 64 - 1`. -/
theorem C10_witness :
    (List.replicate 8 (255 : Nat)).length - 8 <
      fromLE64 ((List.replicate 8 (255 : Nat)).take 8) ∧
    (handle_compression lenCodec 10 (List.replicate 8 (255 : Nat))).2 ≠
      .error .headerSizeMismatch :=
  C10_wrapping_size_check lenCodec 10 (List.replicate 8 255) (by decide)
    (by decide) (by decide) (by decide)

end Kang
